import Mathlib

/-!
Shallow embedding of `.github/workflows/build.py`, the one-shot Quarto build
script: project discovery over a directory tree, a Jupytext header sniffing
predicate, conversion of percent-format Python files to `.qmd` (external tool
with a manual fallback), generation of `_quarto.yml` and `index.qmd`, and the
render invocation.  Python strings are modelled as `String` manipulated through
`List Char` (Python `str` is a sequence of code points), the filesystem as
explicit entry lists with `Option String` contents (`none` = unreadable), and
subprocess results as oracle values passed in.
-/

namespace DataDive

/-! ### Character-list string primitives (Python `str` operations) -/

/-- Does `cs` start with `pat`?  Models Python `str.startswith`. -/
def startsWithL : List Char → List Char → Bool
  | _, [] => true
  | [], _ :: _ => false
  | a :: as, b :: bs => a == b && startsWithL as bs

/-- Does `cs` end with `pat`?  Models Python `str.endswith` and the suffix
test of a `*.ext` glob pattern. -/
def endsWithL (cs pat : List Char) : Bool :=
  startsWithL cs.reverse pat.reverse

/-- Index of the first occurrence of `pat` in `cs`, if any.
Models Python `str.find` (which returns -1 when absent). -/
def findSub (pat : List Char) : List Char → Option Nat
  | [] => if startsWithL [] pat then some 0 else none
  | c :: cs => if startsWithL (c :: cs) pat then some 0 else (findSub pat cs).map (· + 1)

/-- Does `pat` occur in `cs`?  Models Python `pat in s`. -/
def hasSub (pat cs : List Char) : Bool :=
  (findSub pat cs).isSome

def strStartsWith (s pat : String) : Bool := startsWithL s.data pat.data

def strEndsWith (s pat : String) : Bool := endsWithL s.data pat.data

def strContains (s pat : String) : Bool := hasSub pat.data s.data

/-- Python `s[n:]` (character based). -/
def strDrop (s : String) (n : Nat) : String := ⟨s.data.drop n⟩

/-- Python `s[:n]` (character based). -/
def strTake (s : String) (n : Nat) : String := ⟨s.data.take n⟩

/-- The ASCII whitespace stripped by Python `str.strip()`. -/
def isPySpace (c : Char) : Bool :=
  c == ' ' || c == '\t' || c == '\n' || c == '\r' || c == '\x0b' || c == '\x0c'

def stripL (cs : List Char) : List Char :=
  ((cs.dropWhile isPySpace).reverse.dropWhile isPySpace).reverse

/-- Python `str.strip()`. -/
def strStrip (s : String) : String := ⟨stripL s.data⟩

/-- Split at every newline, keeping empty pieces: Python `s.split("\n")`. -/
def splitNl : List Char → List (List Char)
  | [] => [[]]
  | c :: cs =>
    if c = '\n' then [] :: splitNl cs
    else
      match splitNl cs with
      | [] => [[c]]
      | l :: ls => (c :: l) :: ls

/-- The lines of a Python string as split by `content.split("\n")`. -/
def pyLines (s : String) : List String :=
  (splitNl s.data).map fun cs => ⟨cs⟩

/-- Join with newlines: Python `"\n".join(lines)` at character level. -/
def joinNl : List (List Char) → List Char
  | [] => []
  | [l] => l
  | l :: ls => l ++ '\n' :: joinNl ls

def strJoinNl (lines : List String) : String := ⟨joinNl (lines.map String.data)⟩

/-- The physical lines of a text assembled by joining `elems` with newlines:
each element is itself split at its embedded newlines. -/
def expandLines : List String → List String
  | [] => []
  | s :: ss => pyLines s ++ expandLines ss

/-- Index of the first `'.'` in `cs`, if any. -/
def dotIdx : List Char → Option Nat
  | [] => none
  | c :: cs => if c = '.' then some 0 else (dotIdx cs).map (· + 1)

/-- Python `pathlib.PurePath.stem` on a file name: the name without its last
suffix; a leading or trailing dot does not begin a suffix. -/
def stemL (cs : List Char) : List Char :=
  match dotIdx cs.reverse with
  | none => cs
  | some 0 => cs
  | some (j + 1) =>
    let pre := cs.reverse.drop (j + 2)
    if pre = [] then cs else pre.reverse

def strStem (s : String) : String := ⟨stemL s.data⟩

/-- One pass of Python `str.replace(pat, rep)` with `pat = p :: ps`:
`skip` counts pattern characters of a just-matched occurrence that are still
to be consumed without being emitted, so matches never overlap. -/
def replaceAllGo (p : Char) (ps rep : List Char) : List Char → Nat → List Char
  | [], _ => []
  | _ :: cs, k + 1 => replaceAllGo p ps rep cs k
  | c :: cs, 0 =>
    if c = p ∧ startsWithL cs ps = true then rep ++ replaceAllGo p ps rep cs ps.length
    else c :: replaceAllGo p ps rep cs 0

/-- Python `s.replace(pat, rep)` (all non-overlapping occurrences, left to
right).  The script only ever calls it with a non-empty literal `pat`. -/
def strReplace (s pat rep : String) : String :=
  match pat.data with
  | [] => s
  | p :: ps => ⟨replaceAllGo p ps rep.data s.data 0⟩

/-! ### Data model: files, directory entries, documents, teams -/

/-- An entry inside one team directory: a file name and its text, `none` when
reading it raises (including when the entry is itself a directory). -/
structure TFile where
  name : String
  content : Option String
deriving DecidableEq, Repr

/-- An entry of the `Team_Projects` directory. -/
structure DirEntry where
  name : String
  isDir : Bool
  files : List TFile
deriving DecidableEq, Repr

/-- The `type` tags given to discovered files by `discover_team_projects`. -/
inductive DocType where
  | markdown
  | quarto
  | notebook
  | jupytext
deriving DecidableEq, Repr

/-- A filesystem path split as directory part and file name, kept
root-relative (Python keeps `Path` objects and calls `relative_to(root)`). -/
structure PathD where
  dir : String
  file : String
deriving DecidableEq, Repr

/-- One entry of a team's `files` list: `{"path": …, "type": …, "name": stem}`,
plus the file's text (the Python reads it back from disk when converting). -/
structure Doc where
  path : PathD
  type : DocType
  name : String
  content : Option String
deriving DecidableEq, Repr

/-- One entry of the discovery result:
`{"name": dir name, "path": team dir, "files": …}`. -/
structure Team where
  name : String
  path : String
  files : List Doc
deriving DecidableEq, Repr

/-! ### Project discovery (`discover_team_projects`, `is_jupytext_file`) -/

/-- The fixed denylist `skip_dirs` of `discover_team_projects`. -/
def skip_dirs : List String := ["template", ".venv", "__pycache__", "demo", "data"]

/-- The predicate `is_jupytext_file`: the file's text must show `"# ---"`
within its first 500 characters and `"jupytext:"` within its first 1000;
a read error (`content = none`) classifies the file as not convertible. -/
def is_jupytext_file (content : Option String) : Bool :=
  match content with
  | none => false
  | some s => hasSub "# ---".data (s.data.take 500) && hasSub "jupytext:".data (s.data.take 1000)

def fileLE (a b : TFile) : Prop := a.name ≤ b.name

instance : DecidableRel fileLE := fun a b => inferInstanceAs (Decidable (a.name ≤ b.name))

instance : IsTotal TFile fileLE := ⟨fun a b => le_total a.name b.name⟩

instance : IsTrans TFile fileLE := ⟨fun _ _ _ h h2 => le_trans h h2⟩

def dirLE (a b : DirEntry) : Prop := a.name ≤ b.name

instance : DecidableRel dirLE := fun a b => inferInstanceAs (Decidable (a.name ≤ b.name))

instance : IsTotal DirEntry dirLE := ⟨fun a b => le_total a.name b.name⟩

instance : IsTrans DirEntry dirLE := ⟨fun _ _ _ h h2 => le_trans h h2⟩

/-- `sorted(team_dir.glob("*" + ext))`: the directory's entries whose name
ends in `ext`, sorted by name (paths share the parent, so `sorted` on paths
orders by name). -/
def globFiles (d : DirEntry) (ext : String) : List TFile :=
  List.insertionSort fileLE (d.files.filter fun f => strEndsWith f.name ext)

/-- Build one `files` entry from a matched file. -/
def mkDoc (dirPath : String) (t : DocType) (f : TFile) : Doc :=
  ⟨⟨dirPath, f.name⟩, t, strStem f.name, f.content⟩

/-- The `files` list collected for one team directory: the four extension
classes in the fixed order `.md`, `.qmd`, `.ipynb`, then `.py` filtered by
`is_jupytext_file`, each class sorted by file name. -/
def teamFiles (d : DirEntry) : List Doc :=
  (globFiles d ".md").map (mkDoc ("Team_Projects/" ++ d.name) DocType.markdown)
    ++ ((globFiles d ".qmd").map (mkDoc ("Team_Projects/" ++ d.name) DocType.quarto)
    ++ ((globFiles d ".ipynb").map (mkDoc ("Team_Projects/" ++ d.name) DocType.notebook)
    ++ ((globFiles d ".py").filter (fun f => is_jupytext_file f.content)).map
        (mkDoc ("Team_Projects/" ++ d.name) DocType.jupytext)))

/-- The loop body of `discover_team_projects` over the (already sorted)
entries of `Team_Projects`: skip non-directories, hidden names and the
denylist, and keep a team only when its `files` list is non-empty. -/
def discoverLoop : List DirEntry → List Team
  | [] => []
  | d :: rest =>
    if d.isDir = false then discoverLoop rest
    else if strStartsWith d.name "." = true ∨ d.name ∈ skip_dirs then discoverLoop rest
    else if teamFiles d = [] then discoverLoop rest
    else ⟨d.name, "Team_Projects/" ++ d.name, teamFiles d⟩ :: discoverLoop rest

/-- `discover_team_projects(team_src_dir)`: empty when the directory does not
exist, otherwise the loop over `sorted(team_src_dir.iterdir())`. -/
def discover_team_projects (dirExists : Bool) (entries : List DirEntry) : List Team :=
  if dirExists then discoverLoop (List.insertionSort dirLE entries) else []

/-- Position of a document's extension class in the fixed collection order. -/
def groupIdx : DocType → Nat
  | DocType.markdown => 0
  | DocType.quarto => 1
  | DocType.notebook => 2
  | DocType.jupytext => 3

/-- The ordering the spec asserts for a team's documents: by extension class
first, then by file name inside a class. -/
def docLE (a b : Doc) : Prop :=
  groupIdx a.type < groupIdx b.type ∨
    (groupIdx a.type = groupIdx b.type ∧ a.path.file ≤ b.path.file)

/-! ### Manual Jupytext conversion (`manual_jupytext_to_qmd`) -/

/-- De-prefix one YAML header line: `line[2:]` after `"# "`, else `line[1:]`
after `"#"`, else the line itself. -/
def hashStrip (l : String) : String :=
  if strStartsWith l "# " = true then strDrop l 2
  else if strStartsWith l "#" = true then strDrop l 1
  else l

/-- The first loop of `manual_jupytext_to_qmd`: collect the de-prefixed lines
between the first two lines whose stripped text is `"# ---"`, stopping at the
second one. -/
def extractYaml : List String → Bool → List String → List String
  | [], _, acc => acc.reverse
  | l :: ls, inHdr, acc =>
    if strStrip l = "# ---" then
      if inHdr then acc.reverse
      else extractYaml ls true acc
    else if inHdr then extractYaml ls true (hashStrip l :: acc)
    else extractYaml ls inHdr acc

/-- The second loop of `manual_jupytext_to_qmd`: skip everything up to and
including the second `"# ---"` line, then translate cell markers and lines.
Returns the emitted lines and the final `in_code_block` state. -/
def bodyLoop : List String → Bool → Bool → Nat → List String × Bool
  | [], inCode, _, _ => ([], inCode)
  | l :: ls, inCode, skip, cnt =>
    if skip then
      if strStrip l = "# ---" then
        bodyLoop ls inCode (decide (cnt + 1 < 2)) (cnt + 1)
      else bodyLoop ls inCode true cnt
    else if strStartsWith l "# %% [markdown]" = true then
      if inCode then
        let r := bodyLoop ls false false cnt
        ("```\n" :: r.1, r.2)
      else bodyLoop ls false false cnt
    else if strStartsWith l "# %%" = true then
      if inCode then bodyLoop ls true false cnt
      else
        let r := bodyLoop ls true false cnt
        ("\n```{python}" :: r.1, r.2)
    else if inCode = false ∧ strStartsWith l "# " = true then
      let r := bodyLoop ls inCode false cnt
      (strDrop l 2 :: r.1, r.2)
    else if inCode then
      let r := bodyLoop ls inCode false cnt
      (l :: r.1, r.2)
    else if strStrip l = "" then
      let r := bodyLoop ls inCode false cnt
      ("" :: r.1, r.2)
    else bodyLoop ls inCode false cnt

/-- The `qmd_lines` list assembled by `manual_jupytext_to_qmd`: the leading
`---` fence, the extracted YAML header (or a synthesized title), the closing
`---` fence, the translated body, and a closing code fence when a code block
is still open at end of input. -/
def qmdLines (stem : String) (content : String) : List String :=
  let lines := pyLines content
  let yaml := extractYaml lines false []
  let hdr := ["---"] ++ (if yaml = [] then ["title: \"" ++ stem ++ "\""] else yaml) ++ ["---\n"]
  let body := bodyLoop lines false true 0
  hdr ++ body.1 ++ (if body.2 then ["```"] else [])

/-- `manual_jupytext_to_qmd(py_file, output_dir)`: writes
`output_dir / (stem + ".qmd")` and returns its path; any exception (modelled:
the read failing, `content = none`) yields `None`.  The returned pair is
(written path, written text). -/
def manual_jupytext_to_qmd (src : PathD) (content : Option String) (outDir : String) :
    Option (PathD × String) :=
  match content with
  | none => none
  | some c =>
    some (⟨outDir, strStem src.file ++ ".qmd"⟩, strJoinNl (qmdLines (strStem src.file) c))

/-! ### External conversion (`convert_jupytext_to_qmd`) -/

/-- Outcome of launching the `jupytext` subprocess: the executable may be
missing (`FileNotFoundError`), or it ran with a return code, captured stderr,
and the output file existing or not afterwards. -/
inductive RunOutcome where
  | notFound
  | ran (returncode : Int) (stderr : String) (outputExists : Bool)
deriving DecidableEq, Repr

/-- Steps `convert_jupytext_to_qmd` can take, recorded for the control-flow
claims: it always tries the external tool first, and runs the manual
fallback only on `FileNotFoundError`. -/
inductive ConvStep where
  | triedTool
  | usedManual
deriving DecidableEq, Repr

/-- `convert_jupytext_to_qmd(py_file, output_dir)` with its step trace:
success needs return code 0 and the output file present; otherwise `None`.
Only a missing executable reaches `manual_jupytext_to_qmd`. -/
def convert_jupytext_steps (outcome : RunOutcome) (src : PathD) (content : Option String)
    (outDir : String) : Option PathD × List ConvStep :=
  match outcome with
  | RunOutcome.ran rc _ outEx =>
    if rc = 0 ∧ outEx = true then
      (some ⟨outDir, strStem src.file ++ ".qmd"⟩, [ConvStep.triedTool])
    else (none, [ConvStep.triedTool])
  | RunOutcome.notFound =>
    ((manual_jupytext_to_qmd src content outDir).map Prod.fst,
      [ConvStep.triedTool, ConvStep.usedManual])

/-- The returned path of `convert_jupytext_to_qmd`. -/
def convert_jupytext_to_qmd (outcome : RunOutcome) (src : PathD) (content : Option String)
    (outDir : String) : Option PathD :=
  (convert_jupytext_steps outcome src content outDir).1

/-! ### Configuration and landing page generation -/

/-- `f["path"].relative_to(root)` rendered as a string (paths are kept
root-relative in the model). -/
def relPath (f : Doc) : String := f.path.dir ++ "/" ++ f.path.file

/-- One sidebar line `"          - {rel_path}"` of `generate_quarto_yml`. -/
def yamlFileLine (f : Doc) : String := "          - " ++ relPath f

/-- The sidebar lines of one team. -/
def sidebarLines (t : Team) : List String := t.files.map yamlFileLine

/-- One `team_entries` element of `generate_quarto_yml`: present only when the
team has files. -/
def teamEntry (t : Team) : Option String :=
  if sidebarLines t = [] then none
  else
    some ("        - section: \"" ++ t.name ++ "\"\n          contents:\n"
      ++ strJoinNl (sidebarLines t))

/-- `generate_quarto_yml(root, teams)`: the fixed template around the sidebar
contents (or the fallback `README.md` link when no team has files). -/
def generate_quarto_yml (teams : List Team) : String :=
  let team_entries := teams.filterMap teamEntry
  let sidebar_contents :=
    if team_entries = [] then "        - Team_Projects/README.md" else strJoinNl team_entries
  "project:\n  type: website\n  output-dir: docs\n\nwebsite:\n  title: \"DataDive 2025\"\n  description: \"World Bank Data Dive - Data Community DC\"\n  navbar:\n    left:\n      - href: index.qmd\n        text: Home\n      - href: Team_Projects/README.md\n        text: Projects\n  sidebar:\n    - title: \"Team Projects\"\n      style: \"docked\"\n      contents:\n"
    ++ sidebar_contents
    ++ "\n\nformat:\n  html:\n    theme: cosmo\n    toc: true\n    toc-depth: 3\n    code-fold: true\n    code-tools: true\n    highlight-style: github\n\nexecute:\n  freeze: auto\n  echo: true\n  warning: false\n"

/-- One landing-page link line `"- [{name}]({rel_path})\n"`. -/
def docLink (f : Doc) : String := "- [" ++ f.name ++ "](" ++ relPath f ++ ")\n"

/-- Plain left-to-right concatenation of strings (Python `+=` accumulation). -/
def concatStrs : List String → String
  | [] => ""
  | s :: ss => s ++ concatStrs ss

/-- The block appended for one team: a `###` heading then one link per file. -/
def teamBlock (t : Team) : String :=
  "### " ++ t.name ++ "\n\n" ++ concatStrs (t.files.map docLink) ++ "\n"

/-- The `team_links` string of `create_index_qmd`: empty when there are no
teams, else the `## Team Projects` heading followed by every team's block. -/
def teamLinks (teams : List Team) : String :=
  if teams = [] then ""
  else "\n## Team Projects\n\n" ++ concatStrs (teams.map teamBlock)

/-- The default title used when `index.html` is missing or has no title tag. -/
def defaultTitle : String := "Data Dive 2025"

/-- The default description assigned by `create_index_qmd`. -/
def defaultDescription : String := "Welcome to the 2025 World Bank Data Dive!"

/-- The title extracted by `create_index_qmd` from `index.html` when present:
the text between the first `<title>` and the first `</title>`, with the
`&mdash;` entity replaced. -/
def extractedTitle (html : String) : String :=
  if strContains html "<title>" = true ∧ strContains html "</title>" = true then
    let start := ((findSub "<title>".data html.data).getD 0) + 7
    let stop := (findSub "</title>".data html.data).getD 0
    strReplace ⟨(html.data.take stop).drop start⟩ "&mdash;" "—"
  else defaultTitle

/-- The body fragment extracted by `create_index_qmd` from `index.html`: the
text after `<body>` (up to `</body>` when present), with the four fixed tag
substitutions, stripped. -/
def extractedBody (html : String) : String :=
  if strContains html "<body>" = true then
    let bodyStart := ((findSub "<body>".data html.data).getD 0) + 6
    let bodyEnd :=
      if strContains html "</body>" = true then (findSub "</body>".data html.data).getD 0
      else html.data.length
    strStrip (strReplace (strReplace (strReplace (strReplace
      ⟨(html.data.take bodyEnd).drop bodyStart⟩ "<h1>" "\n## ") "</h1>" "\n") "<p>" "\n") "</p>" "\n")
  else ""

/-- `create_index_qmd(root, teams)`: title and body pulled from `index.html`
when it exists (defaults otherwise), then the team links section.  The local
`description` default of the Python is never interpolated into the result. -/
def create_index_qmd (htmlOpt : Option String) (teams : List Team) : String :=
  let title := match htmlOpt with
    | some html => extractedTitle html
    | none => defaultTitle
  let body_content := match htmlOpt with
    | some html => extractedBody html
    | none => ""
  "---\ntitle: \"" ++ title ++ "\"\n---\n\n" ++ body_content ++ "\n\n" ++ teamLinks teams ++ "\n"

/-! ### Render invocation and build orchestration -/

/-- Outcome of the `quarto render` subprocess. -/
inductive RenderOutcome where
  | notFound
  | ran (returncode : Int) (stdout stderr : String)
deriving DecidableEq, Repr

/-- `run_quarto_render(root)`: `False` when the executable is missing,
else success exactly on exit code zero. -/
def run_quarto_render : RenderOutcome → Bool
  | RenderOutcome.notFound => false
  | RenderOutcome.ran rc _ _ => rc == 0

/-- The externally visible effects of `build_site` that the claims speak
about: file writes, the render invocation, console messages, `sys.exit`. -/
inductive Effect where
  | writeFile (path : String) (content : String)
  | render
  | message (text : String)
  | exitStatus (code : Nat)
deriving DecidableEq, Repr

/-- The per-file conversion attempt of `build_site`'s Jupytext pass:
`convert_jupytext_to_qmd(f["path"], f["path"].parent)`. -/
def convDoc (env : PathD → RunOutcome) (d : Doc) : Option PathD :=
  convert_jupytext_to_qmd (env d.path) d.path d.content d.path.dir

/-- The body of the Jupytext pass for one file entry: on success the entry's
`path` and `type` are updated in place, otherwise it is left unchanged. -/
def updateDoc (conv : Doc → Option PathD) (d : Doc) : Doc :=
  if d.type = DocType.jupytext then
    match conv d with
    | some p => { d with path := p, type := DocType.quarto }
    | none => d
  else d

/-- The Jupytext pass over all teams. -/
def processTeams (env : PathD → RunOutcome) (teams : List Team) : List Team :=
  teams.map fun t => { t with files := t.files.map (updateDoc (convDoc env)) }

/-- `build_site()` as its effect trace: discover, convert, write
`_quarto.yml`, write `index.qmd`, render, and either the success message or
the failure message followed by `sys.exit(1)`. -/
def build_site (root : String) (dirExists : Bool) (entries : List DirEntry)
    (env : PathD → RunOutcome) (htmlOpt : Option String) (ro : RenderOutcome) : List Effect :=
  let teams := discover_team_projects dirExists entries
  let teams2 := processTeams env teams
  [Effect.writeFile (root ++ "/_quarto.yml") (generate_quarto_yml teams2),
   Effect.writeFile (root ++ "/index.qmd") (create_index_qmd htmlOpt teams2),
   Effect.render]
  ++ (if run_quarto_render ro then
        [Effect.message ("\nBuild complete! Output in: " ++ root ++ "/docs")]
      else [Effect.message "\nBuild failed!", Effect.exitStatus 1])

/-! ### Fence scanning (re-reading the manual converter's output) -/

/-- A line that opens or closes a fenced code region when the output is
scanned again: its stripped text starts with three backticks. -/
def fenceLine (l : String) : Bool := startsWithL (stripL l.data) "```".data

/-- Scan lines, toggling at every fence line; the result is whether a code
region is still open afterwards. -/
def scanFences : List String → Bool → Bool
  | [], b => b
  | l :: ls, b => scanFences ls (if fenceLine l then !b else b)

/-- A line of the conversion source that cannot smuggle a fence into the
output: neither the line nor its one- or two-character de-prefixings start
(after stripping) with three backticks.  Cell-marker lines satisfy this; a
file violating it has a stray fence marker in the sense of the spec. -/
def lineOK (l : String) : Bool :=
  !fenceLine l && !fenceLine (strDrop l 1) && !fenceLine (strDrop l 2)

/-! ### Lemmas about the string primitives -/

theorem startsWithL_eq_take (pat : List Char) :
    ∀ cs, startsWithL cs pat = true ↔ cs.take pat.length = pat := by
  induction pat with
  | nil => intro cs; simp [startsWithL]
  | cons p ps ih =>
    intro cs
    cases cs with
    | nil => simp [startsWithL]
    | cons c cs => simp [startsWithL, ih, List.take_succ_cons]

theorem hasSub_iff_startsWithL (pat : List Char) :
    ∀ cs, hasSub pat cs = true ↔ ∃ i, startsWithL (cs.drop i) pat = true := by
  intro cs
  induction cs with
  | nil =>
    by_cases hs : startsWithL [] pat = true <;> simp [hasSub, findSub, hs]
  | cons c cs ih =>
    by_cases hs : startsWithL (c :: cs) pat = true
    · constructor
      · intro _; exact ⟨0, by simpa using hs⟩
      · intro _; simp [hasSub, findSub, hs]
    · have hstep : hasSub pat (c :: cs) = hasSub pat cs := by
        simp only [hasSub, findSub]
        rw [if_neg hs]
        cases findSub pat cs <;> rfl
      rw [hstep, ih]
      constructor
      · rintro ⟨i, h⟩; exact ⟨i + 1, by simpa using h⟩
      · rintro ⟨i, h⟩
        cases i with
        | zero => exact absurd (by simpa using h) hs
        | succ j => exact ⟨j, by simpa using h⟩

theorem hasSub_take_iff (pat cs : List Char) (n : Nat) (hp : 0 < pat.length) :
    hasSub pat (cs.take n) = true ↔
      ∃ i, i + pat.length ≤ n ∧ (cs.drop i).take pat.length = pat := by
  rw [hasSub_iff_startsWithL]
  constructor
  · rintro ⟨i, h⟩
    rw [startsWithL_eq_take] at h
    rw [List.drop_take, List.take_take] at h
    have hlen := congrArg List.length h
    simp only [List.length_take] at hlen
    have h1 : pat.length ≤ min pat.length (n - i) := by
      calc pat.length = min (min pat.length (n - i)) (cs.drop i).length := hlen.symm
        _ ≤ min pat.length (n - i) := min_le_left _ _
    have h2 : pat.length ≤ n - i := le_trans h1 (min_le_right _ _)
    refine ⟨i, by omega, ?_⟩
    rwa [min_eq_left h2] at h
  · rintro ⟨i, hle, h⟩
    refine ⟨i, ?_⟩
    rw [startsWithL_eq_take, List.drop_take, List.take_take, min_eq_left (by omega)]
    exact h

/-! ### Lemmas about discovery -/

theorem mem_discoverLoop (l : List DirEntry) (t : Team) :
    t ∈ discoverLoop l ↔ ∃ d, d ∈ l ∧ d.isDir = true ∧ strStartsWith d.name "." = false ∧
      d.name ∉ skip_dirs ∧ teamFiles d ≠ [] ∧
      t = ⟨d.name, "Team_Projects/" ++ d.name, teamFiles d⟩ := by
  induction l with
  | nil => simp [discoverLoop]
  | cons d rest ih =>
    simp only [discoverLoop]
    by_cases h1 : d.isDir = false
    · rw [if_pos h1, ih]
      constructor
      · rintro ⟨e, he, h⟩; exact ⟨e, List.mem_cons_of_mem _ he, h⟩
      · rintro ⟨e, he, hdir, h⟩
        rcases List.mem_cons.mp he with rfl | he2
        · rw [h1] at hdir; cases hdir
        · exact ⟨e, he2, hdir, h⟩
    · have h1' : d.isDir = true := by revert h1; cases d.isDir <;> simp
      rw [if_neg h1]
      by_cases h2 : strStartsWith d.name "." = true ∨ d.name ∈ skip_dirs
      · rw [if_pos h2, ih]
        constructor
        · rintro ⟨e, he, h⟩; exact ⟨e, List.mem_cons_of_mem _ he, h⟩
        · rintro ⟨e, he, hdir, hsw, hns, h⟩
          rcases List.mem_cons.mp he with rfl | he2
          · rcases h2 with h2 | h2
            · rw [hsw] at h2; cases h2
            · exact absurd h2 hns
          · exact ⟨e, he2, hdir, hsw, hns, h⟩
      · push_neg at h2
        obtain ⟨h2a, h2b⟩ := h2
        have h2a' : strStartsWith d.name "." = false := by
          revert h2a; cases strStartsWith d.name "." <;> simp
        rw [if_neg (by rw [h2a']; simp [h2b])]
        by_cases h3 : teamFiles d = []
        · rw [if_pos h3, ih]
          constructor
          · rintro ⟨e, he, h⟩; exact ⟨e, List.mem_cons_of_mem _ he, h⟩
          · rintro ⟨e, he, hdir, hsw, hns, hnf, h⟩
            rcases List.mem_cons.mp he with rfl | he2
            · exact absurd h3 hnf
            · exact ⟨e, he2, hdir, hsw, hns, hnf, h⟩
        · rw [if_neg h3]
          simp only [List.mem_cons]
          rw [ih]
          constructor
          · rintro (rfl | ⟨e, he, h⟩)
            · exact ⟨d, Or.inl rfl, h1', h2a', h2b, h3, rfl⟩
            · exact ⟨e, Or.inr he, h⟩
          · rintro ⟨e, he, hdir, hsw, hns, hnf, ht⟩
            rcases he with rfl | he2
            · exact Or.inl ht
            · exact Or.inr ⟨e, he2, hdir, hsw, hns, hnf, ht⟩

theorem discoverLoop_names_sublist (l : List DirEntry) :
    List.Sublist ((discoverLoop l).map Team.name) (l.map DirEntry.name) := by
  induction l with
  | nil => simp [discoverLoop]
  | cons d rest ih =>
    simp only [discoverLoop, List.map_cons]
    by_cases h1 : d.isDir = false
    · rw [if_pos h1]; exact ih.cons _
    · rw [if_neg h1]
      by_cases h2 : strStartsWith d.name "." = true ∨ d.name ∈ skip_dirs
      · rw [if_pos h2]; exact ih.cons _
      · rw [if_neg h2]
        by_cases h3 : teamFiles d = []
        · rw [if_pos h3]; exact ih.cons _
        · rw [if_neg h3]; simpa using ih.cons₂ d.name

theorem pairwise_fileLE_globFiles (d : DirEntry) (ext : String) :
    (globFiles d ext).Pairwise fileLE :=
  List.sorted_insertionSort fileLE _

theorem pairwise_docLE_map (fs : List TFile) (ty : DocType) (p : String)
    (h : fs.Pairwise fileLE) : (fs.map (mkDoc p ty)).Pairwise docLE := by
  rw [List.pairwise_map]
  exact h.imp fun hab => Or.inr ⟨rfl, hab⟩

theorem type_of_mem_map (fs : List TFile) (ty : DocType) (p : String) (x : Doc)
    (hx : x ∈ fs.map (mkDoc p ty)) : x.type = ty := by
  obtain ⟨f, _, rfl⟩ := List.mem_map.mp hx
  rfl

theorem docLE_of_groupIdx_lt (x y : Doc) (h : groupIdx x.type < groupIdx y.type) :
    docLE x y := Or.inl h

theorem pairwise_docLE_teamFiles (d : DirEntry) : (teamFiles d).Pairwise docLE := by
  have hpy : ((globFiles d ".py").filter
      (fun f => is_jupytext_file f.content)).Pairwise fileLE :=
    (pairwise_fileLE_globFiles d ".py").sublist (List.filter_sublist _)
  rw [teamFiles]
  refine List.pairwise_append.mpr ⟨pairwise_docLE_map _ _ _ (pairwise_fileLE_globFiles d _),
    List.pairwise_append.mpr ⟨pairwise_docLE_map _ _ _ (pairwise_fileLE_globFiles d _),
      List.pairwise_append.mpr ⟨pairwise_docLE_map _ _ _ (pairwise_fileLE_globFiles d _),
        pairwise_docLE_map _ _ _ hpy, ?_⟩, ?_⟩, ?_⟩
  · intro x hx y hy
    have hxt := type_of_mem_map _ _ _ _ hx
    have hyt := type_of_mem_map _ _ _ _ hy
    exact docLE_of_groupIdx_lt _ _ (by rw [hxt, hyt]; decide)
  · intro x hx y hy
    have hxt := type_of_mem_map _ _ _ _ hx
    rcases List.mem_append.mp hy with hy2 | hy2
    · have hyt := type_of_mem_map _ _ _ _ hy2
      exact docLE_of_groupIdx_lt _ _ (by rw [hxt, hyt]; decide)
    · have hyt := type_of_mem_map _ _ _ _ hy2
      exact docLE_of_groupIdx_lt _ _ (by rw [hxt, hyt]; decide)
  · intro x hx y hy
    have hxt := type_of_mem_map _ _ _ _ hx
    rcases List.mem_append.mp hy with hy2 | hy2
    · have hyt := type_of_mem_map _ _ _ _ hy2
      exact docLE_of_groupIdx_lt _ _ (by rw [hxt, hyt]; decide)
    · rcases List.mem_append.mp hy2 with hy3 | hy3
      · have hyt := type_of_mem_map _ _ _ _ hy3
        exact docLE_of_groupIdx_lt _ _ (by rw [hxt, hyt]; decide)
      · have hyt := type_of_mem_map _ _ _ _ hy3
        exact docLE_of_groupIdx_lt _ _ (by rw [hxt, hyt]; decide)

/-! ### String extensionality and substring monotonicity -/

theorem strExt {a b : String} (h : a.data = b.data) : a = b := by
  cases a; cases b; exact congrArg String.mk h

theorem strData_append (a b : String) : (a ++ b).data = a.data ++ b.data := by
  cases a; cases b; rfl

theorem strAppend_assoc (a b c : String) : a ++ b ++ c = a ++ (b ++ c) :=
  strExt (by rw [strData_append, strData_append, strData_append, strData_append,
    List.append_assoc])

theorem hasSub_nil_pat (cs : List Char) : hasSub [] cs = true := by
  cases cs <;> simp [hasSub, findSub, startsWithL]

theorem hasSub_cons (pat : List Char) (c : Char) (cs : List Char) (h : hasSub pat cs = true) :
    hasSub pat (c :: cs) = true := by
  simp only [hasSub, findSub]
  by_cases hs : startsWithL (c :: cs) pat = true
  · rw [if_pos hs]; rfl
  · rw [if_neg hs]
    simp only [hasSub] at h
    cases hfind : findSub pat cs with
    | none => rw [hfind] at h; cases h
    | some k => rfl

theorem hasSub_append_left_ext (pat u m : List Char) (h : hasSub pat m = true) :
    hasSub pat (u ++ m) = true := by
  induction u with
  | nil => simpa using h
  | cons c u ih => exact hasSub_cons _ _ _ ih

theorem hasSub_append_right_ext (pat m v : List Char) (h : hasSub pat m = true) :
    hasSub pat (m ++ v) = true := by
  cases pat with
  | nil => exact hasSub_nil_pat _
  | cons p ps =>
    rw [hasSub_iff_startsWithL] at h ⊢
    obtain ⟨i, hi⟩ := h
    have hne : m.drop i ≠ [] := fun hnil => by rw [hnil] at hi; simp [startsWithL] at hi
    have hlt : i < m.length := by
      by_contra hge
      push_neg at hge
      exact hne (List.drop_eq_nil_of_le hge)
    refine ⟨i, ?_⟩
    rw [List.drop_append_of_le_length (le_of_lt hlt)]
    rw [startsWithL_eq_take] at hi ⊢
    have hlen2 := congrArg List.length hi
    simp only [List.length_take, List.length_cons, List.length_drop] at hlen2
    have hlen : (p :: ps).length ≤ (m.drop i).length := by
      simp only [List.length_cons, List.length_drop]
      omega
    rw [List.take_append_of_le_length hlen]
    exact hi

theorem hasSub_self (pat : List Char) : hasSub pat pat = true := by
  cases pat with
  | nil => exact hasSub_nil_pat _
  | cons p ps =>
    rw [hasSub_iff_startsWithL]
    refine ⟨0, ?_⟩
    rw [List.drop_zero, startsWithL_eq_take, List.take_length]

theorem hasSub_mono (pat m u v : List Char) (h : hasSub pat m = true) :
    hasSub pat (u ++ (m ++ v)) = true :=
  hasSub_append_left_ext _ _ _ (hasSub_append_right_ext _ _ _ h)

theorem hasSub_of_parts (pat u v cs : List Char) (h : cs = u ++ (pat ++ v)) :
    hasSub pat cs = true := by
  rw [h]
  exact hasSub_mono _ _ _ _ (hasSub_self pat)

theorem strContains_of_parts (s pat : String) (u v : List Char)
    (h : s.data = u ++ (pat.data ++ v)) : strContains s pat = true :=
  hasSub_of_parts _ _ _ _ h

theorem concatStrs_map_split {α : Type} (f : α → String) (l : List α) (x : α) (hx : x ∈ l) :
    ∃ u v : List Char, (concatStrs (l.map f)).data = u ++ ((f x).data ++ v) := by
  induction l with
  | nil => cases hx
  | cons a l ih =>
    rcases List.mem_cons.mp hx with rfl | hx2
    · exact ⟨[], (concatStrs (l.map f)).data, by simp [concatStrs, strData_append]⟩
    · obtain ⟨u, v, h⟩ := ih hx2
      exact ⟨(f a).data ++ u, v,
        by simp [concatStrs, strData_append, h, List.append_assoc]⟩

/-! ### Claim theorems -/

/-- C1: discovery over an existing root returns exactly the team
subdirectories (non-hidden, not denylisted) holding at least one recognized
document, each as a team carrying precisely its recognized documents; the
teams are sorted by directory name, and within each team the documents are
ordered by extension group (`.md`, `.qmd`, `.ipynb`, convertible `.py`) and
by file name inside each group.  Teams with no documents are omitted. -/
theorem discover_team_projects_spec (entries : List DirEntry) :
    (∀ t, t ∈ discover_team_projects true entries ↔
      ∃ d, d ∈ entries ∧ d.isDir = true ∧ strStartsWith d.name "." = false ∧
        d.name ∉ skip_dirs ∧ teamFiles d ≠ [] ∧
        t = ⟨d.name, "Team_Projects/" ++ d.name, teamFiles d⟩) ∧
    List.Sorted (· ≤ ·) ((discover_team_projects true entries).map Team.name) ∧
    (∀ t, t ∈ discover_team_projects true entries → t.files.Pairwise docLE) := by
  have hunfold : discover_team_projects true entries =
      discoverLoop (List.insertionSort dirLE entries) := if_pos rfl
  refine ⟨?_, ?_, ?_⟩
  · intro t
    rw [hunfold, mem_discoverLoop]
    exact exists_congr fun d =>
      and_congr_left' (List.perm_insertionSort dirLE entries).mem_iff
  · rw [hunfold]
    have hsorted : List.Sorted dirLE (List.insertionSort dirLE entries) :=
      List.sorted_insertionSort dirLE entries
    have hnames : List.Pairwise (· ≤ ·)
        ((List.insertionSort dirLE entries).map DirEntry.name) :=
      hsorted.map DirEntry.name fun _ _ h => h
    exact hnames.sublist (discoverLoop_names_sublist _)
  · intro t ht
    rw [hunfold, mem_discoverLoop] at ht
    obtain ⟨d, _, _, _, _, _, rfl⟩ := ht
    exact pairwise_docLE_teamFiles d

/-- C8: a directory whose name is in the denylist or starts with a dot never
appears as a team in the discovery result, whatever it contains. -/
theorem discover_skips_denylist_and_hidden (dirExists : Bool) (entries : List DirEntry)
    (t : Team) (ht : t ∈ discover_team_projects dirExists entries) :
    t.name ∉ skip_dirs ∧ strStartsWith t.name "." = false := by
  cases dirExists with
  | false => simp [discover_team_projects] at ht
  | true =>
    rw [show discover_team_projects true entries =
        discoverLoop (List.insertionSort dirLE entries) from if_pos rfl,
      mem_discoverLoop] at ht
    obtain ⟨d, _, _, hsw, hns, _, rfl⟩ := ht
    exact ⟨hns, hsw⟩

/-- Witness for C8 at a concrete directory tree. -/
theorem discover_skips_denylist_and_hidden_witness :
    (⟨"alpha", "Team_Projects/alpha",
        [⟨⟨"Team_Projects/alpha", "r.md"⟩, DocType.markdown, "r", some ""⟩]⟩ : Team) ∈
      discover_team_projects true [⟨"alpha", true, [⟨"r.md", some ""⟩]⟩] ∧
    (⟨"alpha", "Team_Projects/alpha",
        [⟨⟨"Team_Projects/alpha", "r.md"⟩, DocType.markdown, "r", some ""⟩]⟩ : Team).name ∉
        skip_dirs ∧
      strStartsWith (Team.name ⟨"alpha", "Team_Projects/alpha",
        [⟨⟨"Team_Projects/alpha", "r.md"⟩, DocType.markdown, "r", some ""⟩]⟩) "." = false :=
  ⟨by decide,
    discover_skips_denylist_and_hidden true [⟨"alpha", true, [⟨"r.md", some ""⟩]⟩]
      ⟨"alpha", "Team_Projects/alpha",
        [⟨⟨"Team_Projects/alpha", "r.md"⟩, DocType.markdown, "r", some ""⟩]⟩ (by decide)⟩

/-- C2: `is_jupytext_file` classifies a `.py` file as convertible iff the
delimiter `"# ---"` occurs (at some character position `i`, `i + 5 ≤ 500`)
within the first 500 characters of its text and the metadata marker
`"jupytext:"` occurs within the first 1000 characters; a read error
(`content = none`) always classifies it as not convertible. -/
theorem is_jupytext_file_spec (content : Option String) :
    is_jupytext_file content = true ↔
      ∃ s, content = some s ∧
        (∃ i, i + 5 ≤ 500 ∧ (s.data.drop i).take 5 = "# ---".data) ∧
        (∃ j, j + 9 ≤ 1000 ∧ (s.data.drop j).take 9 = "jupytext:".data) := by
  cases content with
  | none => simp [is_jupytext_file]
  | some s =>
    have h5 : ("# ---".data).length = 5 := rfl
    have h9 : ("jupytext:".data).length = 9 := rfl
    simp only [is_jupytext_file, Bool.and_eq_true]
    rw [hasSub_take_iff _ _ _ (by decide), hasSub_take_iff _ _ _ (by decide), h5, h9]
    constructor
    · rintro ⟨h1, h2⟩; exact ⟨s, rfl, h1, h2⟩
    · rintro ⟨s2, hs, h1, h2⟩
      cases hs
      exact ⟨h1, h2⟩

/-- C3: with the converter found and run, `convert_jupytext_to_qmd` returns
the path `<stem>.qmd` in the output directory exactly when the subprocess
exits zero and the output file exists; every other subprocess outcome yields
`None` (no retry), and the caller leaves a file entry whose conversion
returned `None` unchanged. -/
theorem convert_jupytext_to_qmd_spec (rc : Int) (se : String) (outEx : Bool) (src : PathD)
    (content : Option String) (outDir : String) :
    (∀ p, convert_jupytext_to_qmd (RunOutcome.ran rc se outEx) src content outDir = some p ↔
      rc = 0 ∧ outEx = true ∧ p = ⟨outDir, strStem src.file ++ ".qmd"⟩) ∧
    (¬(rc = 0 ∧ outEx = true) →
      convert_jupytext_to_qmd (RunOutcome.ran rc se outEx) src content outDir = none) ∧
    (∀ (conv : Doc → Option PathD) (d : Doc), conv d = none → updateDoc conv d = d) := by
  refine ⟨?_, ?_, ?_⟩
  · intro p
    constructor
    · intro h
      simp only [convert_jupytext_to_qmd, convert_jupytext_steps] at h
      by_cases hc : rc = 0 ∧ outEx = true
      · rw [if_pos hc] at h
        exact ⟨hc.1, hc.2, (Option.some.inj h).symm⟩
      · rw [if_neg hc] at h
        exact absurd h (by simp)
    · rintro ⟨h0, hex, rfl⟩
      simp only [convert_jupytext_to_qmd, convert_jupytext_steps]
      rw [if_pos ⟨h0, hex⟩]
  · intro h
    simp only [convert_jupytext_to_qmd, convert_jupytext_steps]
    rw [if_neg h]
  · intro conv d hc
    unfold updateDoc
    by_cases ht : d.type = DocType.jupytext
    · rw [if_pos ht, hc]
    · rw [if_neg ht]

/-- C7: the manual fallback runs exactly when launching the external tool
raises `FileNotFoundError`; a tool that is found (whatever its exit code or
output) never reaches the fallback. -/
theorem fallback_only_when_tool_missing (outcome : RunOutcome) (src : PathD)
    (content : Option String) (outDir : String) :
    (ConvStep.usedManual ∈ (convert_jupytext_steps outcome src content outDir).2 ↔
      outcome = RunOutcome.notFound) ∧
    ∀ rc se outEx,
      (convert_jupytext_steps (RunOutcome.ran rc se outEx) src content outDir).2 =
        [ConvStep.triedTool] := by
  constructor
  · cases outcome with
    | notFound => simp [convert_jupytext_steps]
    | ran rc se outEx =>
      simp only [convert_jupytext_steps]
      by_cases h : rc = 0 ∧ outEx = true
      · rw [if_pos h]; simp
      · rw [if_neg h]; simp
  · intro rc se outEx
    simp only [convert_jupytext_steps]
    by_cases h : rc = 0 ∧ outEx = true
    · rw [if_pos h]
    · rw [if_neg h]

/-- C4: when the renderer is missing or exits nonzero the build trace ends
with the failure message and `sys.exit(1)`, and both the configuration file
and the landing page were written before the render invocation; on success
the trace ends with the message naming the output directory. -/
theorem build_site_render_outcome (root : String) (dirExists : Bool)
    (entries : List DirEntry) (env : PathD → RunOutcome) (htmlOpt : Option String)
    (ro : RenderOutcome) :
    ((ro = RenderOutcome.notFound ∨ ∃ rc so se, ro = RenderOutcome.ran rc so se ∧ rc ≠ 0) →
      run_quarto_render ro = false ∧
      ∃ cfg idx, build_site root dirExists entries env htmlOpt ro =
        [Effect.writeFile (root ++ "/_quarto.yml") cfg,
         Effect.writeFile (root ++ "/index.qmd") idx,
         Effect.render, Effect.message "\nBuild failed!", Effect.exitStatus 1]) ∧
    (run_quarto_render ro = true →
      ∃ cfg idx, build_site root dirExists entries env htmlOpt ro =
        [Effect.writeFile (root ++ "/_quarto.yml") cfg,
         Effect.writeFile (root ++ "/index.qmd") idx,
         Effect.render,
         Effect.message ("\nBuild complete! Output in: " ++ root ++ "/docs")]) := by
  constructor
  · intro h
    have hfail : run_quarto_render ro = false := by
      rcases h with rfl | ⟨rc, so, se, rfl, hrc⟩
      · rfl
      · simp [run_quarto_render, hrc]
    refine ⟨hfail,
      generate_quarto_yml (processTeams env (discover_team_projects dirExists entries)),
      create_index_qmd htmlOpt (processTeams env (discover_team_projects dirExists entries)),
      ?_⟩
    simp only [build_site]
    rw [if_neg (by rw [hfail]; exact Bool.false_ne_true)]
    rfl
  · intro h
    refine ⟨generate_quarto_yml (processTeams env (discover_team_projects dirExists entries)),
      create_index_qmd htmlOpt (processTeams env (discover_team_projects dirExists entries)),
      ?_⟩
    simp only [build_site]
    rw [if_pos h]
    rfl

set_option maxRecDepth 100000 in
/-- C6 counterexample: with `index.html` absent and one team present, the
generated landing page does not contain the fixed default description — the
Python assigns `description` but never interpolates it into the output, so
the claim that the page contains the default description fails. -/
theorem create_index_qmd_missing_description :
    strContains
      (create_index_qmd none
        [⟨"Alpha", "Team_Projects/Alpha",
          [⟨⟨"Team_Projects/Alpha", "report.qmd"⟩, DocType.quarto, "report", none⟩]⟩])
      defaultDescription = false := by decide

/-- C6 (amended: the default description is assigned but never written into
the page, so it is dropped from the claim): with `index.html` absent the
landing page carries the fixed default title and an empty body section, and,
when teams exist, a populated `## Team Projects` section with one heading per
team and one link per document built from display name and relative path. -/
theorem create_index_qmd_default_spec (teams : List Team) (hne : teams ≠ []) :
    create_index_qmd none teams =
      "---\ntitle: \"" ++ defaultTitle ++ "\"\n---\n\n" ++ "" ++ "\n\n"
        ++ teamLinks teams ++ "\n" ∧
    strContains (create_index_qmd none teams) "\n## Team Projects\n\n" = true ∧
    (∀ t ∈ teams,
      strContains (create_index_qmd none teams) ("### " ++ t.name ++ "\n\n") = true) ∧
    (∀ t ∈ teams, ∀ f ∈ t.files,
      strContains (create_index_qmd none teams)
        ("- [" ++ f.name ++ "](" ++ relPath f ++ ")\n") = true) := by
  have heq : create_index_qmd none teams =
      "---\ntitle: \"" ++ defaultTitle ++ "\"\n---\n\n" ++ "" ++ "\n\n"
        ++ teamLinks teams ++ "\n" := rfl
  have hlinks : teamLinks teams = "\n## Team Projects\n\n" ++ concatStrs (teams.map teamBlock) := by
    unfold teamLinks
    rw [if_neg hne]
  have hdata : (create_index_qmd none teams).data =
      ("---\ntitle: \"" ++ defaultTitle ++ "\"\n---\n\n" ++ "" ++ "\n\n").data ++
        (("\n## Team Projects\n\n").data ++
          ((concatStrs (teams.map teamBlock)).data ++ ("\n" : String).data)) := by
    rw [heq, hlinks]
    simp [strData_append, List.append_assoc]
  refine ⟨heq, ?_, ?_, ?_⟩
  · exact strContains_of_parts _ _ _ _ hdata
  · intro t ht
    obtain ⟨u, v, hsplit⟩ := concatStrs_map_split teamBlock teams t ht
    apply strContains_of_parts _ _
      (("---\ntitle: \"" ++ defaultTitle ++ "\"\n---\n\n" ++ "" ++ "\n\n").data ++
        (("\n## Team Projects\n\n").data ++ u))
      ((concatStrs (t.files.map docLink)).data ++
        (("\n" : String).data ++ (v ++ ("\n" : String).data)))
    have htb : (teamBlock t).data =
        ("### " ++ t.name ++ "\n\n").data ++
          ((concatStrs (t.files.map docLink)).data ++ ("\n" : String).data) := by
      simp [teamBlock, strData_append, List.append_assoc]
    rw [hdata, hsplit, htb]
    simp [strData_append, List.append_assoc]
  · intro t ht f hf
    obtain ⟨u, v, hsplit⟩ := concatStrs_map_split teamBlock teams t ht
    obtain ⟨u2, v2, hsplit2⟩ := concatStrs_map_split docLink t.files f hf
    show strContains _ (docLink f) = true
    apply strContains_of_parts _ _
      (("---\ntitle: \"" ++ defaultTitle ++ "\"\n---\n\n" ++ "" ++ "\n\n").data ++
        (("\n## Team Projects\n\n").data ++
          (u ++ (("### " ++ t.name ++ "\n\n").data ++ u2))))
      (v2 ++ (("\n" : String).data ++ (v ++ ("\n" : String).data)))
    have htb : (teamBlock t).data =
        ("### " ++ t.name ++ "\n\n").data ++
          ((concatStrs (t.files.map docLink)).data ++ ("\n" : String).data) := by
      simp [teamBlock, strData_append, List.append_assoc]
    rw [hdata, hsplit, htb, hsplit2]
    simp [strData_append, List.append_assoc]

/-- Witness for the amended C6 at a concrete team list. -/
theorem create_index_qmd_default_spec_witness :
    ([⟨"Alpha", "Team_Projects/Alpha",
        [⟨⟨"Team_Projects/Alpha", "report.qmd"⟩, DocType.quarto, "report", none⟩]⟩] :
      List Team) ≠ [] ∧
    (create_index_qmd none
        [⟨"Alpha", "Team_Projects/Alpha",
          [⟨⟨"Team_Projects/Alpha", "report.qmd"⟩, DocType.quarto, "report", none⟩]⟩] =
      "---\ntitle: \"" ++ defaultTitle ++ "\"\n---\n\n" ++ "" ++ "\n\n"
        ++ teamLinks
          [⟨"Alpha", "Team_Projects/Alpha",
            [⟨⟨"Team_Projects/Alpha", "report.qmd"⟩, DocType.quarto, "report", none⟩]⟩]
        ++ "\n" ∧
    strContains
      (create_index_qmd none
        [⟨"Alpha", "Team_Projects/Alpha",
          [⟨⟨"Team_Projects/Alpha", "report.qmd"⟩, DocType.quarto, "report", none⟩]⟩])
      "\n## Team Projects\n\n" = true ∧
    (∀ t ∈ ([⟨"Alpha", "Team_Projects/Alpha",
        [⟨⟨"Team_Projects/Alpha", "report.qmd"⟩, DocType.quarto, "report", none⟩]⟩] :
          List Team),
      strContains
        (create_index_qmd none
          [⟨"Alpha", "Team_Projects/Alpha",
            [⟨⟨"Team_Projects/Alpha", "report.qmd"⟩, DocType.quarto, "report", none⟩]⟩])
        ("### " ++ t.name ++ "\n\n") = true) ∧
    (∀ t ∈ ([⟨"Alpha", "Team_Projects/Alpha",
        [⟨⟨"Team_Projects/Alpha", "report.qmd"⟩, DocType.quarto, "report", none⟩]⟩] :
          List Team), ∀ f ∈ t.files,
      strContains
        (create_index_qmd none
          [⟨"Alpha", "Team_Projects/Alpha",
            [⟨⟨"Team_Projects/Alpha", "report.qmd"⟩, DocType.quarto, "report", none⟩]⟩])
        ("- [" ++ f.name ++ "](" ++ relPath f ++ ")\n") = true)) :=
  ⟨by decide,
    create_index_qmd_default_spec
      [⟨"Alpha", "Team_Projects/Alpha",
        [⟨⟨"Team_Projects/Alpha", "report.qmd"⟩, DocType.quarto, "report", none⟩]⟩]
      (by decide)⟩

theorem bodyLoop_skip_all (lines : List String) (inCode : Bool) (cnt : Nat)
    (h : cnt + lines.countP (fun l => decide (strStrip l = "# ---")) < 2) :
    bodyLoop lines inCode true cnt = ([], inCode) := by
  induction lines generalizing cnt with
  | nil => rfl
  | cons l ls ih =>
    rw [List.countP_cons] at h
    simp only [bodyLoop, if_pos rfl]
    by_cases hl : strStrip l = "# ---"
    · rw [if_pos hl]
      have hcnt : cnt + 1 < 2 := by simp [hl] at h; omega
      rw [show decide (cnt + 1 < 2) = true by simp [hcnt]]
      exact ih _ (by simp [hl] at h; omega)
    · rw [if_neg hl]
      exact ih _ (by simp [hl] at h; omega)

/-- C9: a convertible `.py` file with fewer than two lines stripping to
`"# ---"` (possible since classification only needs the marker as a
substring) makes the manual fallback skip its entire body: the output is
exactly the metadata block — extracted, or synthesized from the stem — with
nothing after it. -/
theorem manual_jupytext_to_qmd_header_only (src : PathD) (content : String) (outDir : String)
    (_hconv : is_jupytext_file (some content) = true)
    (hcnt : (pyLines content).countP (fun l => decide (strStrip l = "# ---")) < 2) :
    manual_jupytext_to_qmd src (some content) outDir =
      some (⟨outDir, strStem src.file ++ ".qmd"⟩,
        strJoinNl (["---"] ++
          (if extractYaml (pyLines content) false [] = []
            then ["title: \"" ++ strStem src.file ++ "\""]
            else extractYaml (pyLines content) false []) ++ ["---\n"])) := by
  have hbody : bodyLoop (pyLines content) false true 0 = ([], false) :=
    bodyLoop_skip_all _ _ _ (by simpa using hcnt)
  have hqmd : qmdLines (strStem src.file) content =
      ["---"] ++
        (if extractYaml (pyLines content) false [] = []
          then ["title: \"" ++ strStem src.file ++ "\""]
          else extractYaml (pyLines content) false []) ++ ["---\n"] := by
    simp only [qmdLines, hbody]
    simp
  simp only [manual_jupytext_to_qmd, hqmd]

/-- Witness for C9 at a concrete convertible file with no exact marker line. -/
theorem manual_jupytext_to_qmd_header_only_witness :
    is_jupytext_file (some "x# ---\n# jupytext:\nprint(1)") = true ∧
    (pyLines "x# ---\n# jupytext:\nprint(1)").countP
      (fun l => decide (strStrip l = "# ---")) < 2 ∧
    manual_jupytext_to_qmd ⟨"Team_Projects/T", "nb.py"⟩
        (some "x# ---\n# jupytext:\nprint(1)") "Team_Projects/T" =
      some (⟨"Team_Projects/T", strStem "nb.py" ++ ".qmd"⟩,
        strJoinNl (["---"] ++
          (if extractYaml (pyLines "x# ---\n# jupytext:\nprint(1)") false [] = []
            then ["title: \"" ++ strStem "nb.py" ++ "\""]
            else extractYaml (pyLines "x# ---\n# jupytext:\nprint(1)") false []) ++
          ["---\n"])) :=
  ⟨by decide, by decide,
    manual_jupytext_to_qmd_header_only ⟨"Team_Projects/T", "nb.py"⟩
      "x# ---\n# jupytext:\nprint(1)" "Team_Projects/T" (by decide) (by decide)⟩

/-! ### Lemmas about line splitting and fence scanning -/

theorem strMkData (s : String) : (⟨s.data⟩ : String) = s := by cases s; rfl

theorem splitNl_ne_nil (cs : List Char) : splitNl cs ≠ [] := by
  cases cs with
  | nil => simp [splitNl]
  | cons c cs =>
    simp only [splitNl]
    by_cases hc : c = '\n'
    · rw [if_pos hc]; simp
    · rw [if_neg hc]
      cases splitNl cs <;> simp

theorem splitNl_no_nl : ∀ (cs : List Char), ∀ l ∈ splitNl cs, '\n' ∉ l := by
  intro cs
  induction cs with
  | nil =>
    intro l hl
    simp only [splitNl, List.mem_singleton] at hl
    subst hl
    simp
  | cons c cs ih =>
    intro l hl
    simp only [splitNl] at hl
    by_cases hc : c = '\n'
    · rw [if_pos hc] at hl
      rcases List.mem_cons.mp hl with rfl | h2
      · simp
      · exact ih l h2
    · rw [if_neg hc] at hl
      cases hsp : splitNl cs with
      | nil => exact absurd hsp (splitNl_ne_nil cs)
      | cons a as =>
        rw [hsp] at hl
        rcases List.mem_cons.mp hl with rfl | h2
        · intro hm
          rcases List.mem_cons.mp hm with h3 | h3
          · exact hc h3.symm
          · exact ih a (hsp ▸ List.mem_cons_self _ _) h3
        · exact ih l (hsp ▸ List.mem_cons_of_mem _ h2)

theorem splitNl_eq_single (cs : List Char) (h : '\n' ∉ cs) : splitNl cs = [cs] := by
  induction cs with
  | nil => rfl
  | cons c cs ih =>
    have hc : ¬ c = '\n' := fun hh => h (hh ▸ List.mem_cons_self _ _)
    have hcs : '\n' ∉ cs := fun hm => h (List.mem_cons_of_mem _ hm)
    simp only [splitNl]
    rw [if_neg hc, ih hcs]

theorem splitNl_append_nl (xs ys : List Char) :
    splitNl (xs ++ '\n' :: ys) = splitNl xs ++ splitNl ys := by
  induction xs with
  | nil => simp [splitNl]
  | cons c xs ih =>
    simp only [List.cons_append, splitNl, List.append_eq]
    by_cases hc : c = '\n'
    · rw [if_pos hc, if_pos hc, ih]; simp
    · rw [if_neg hc, if_neg hc, ih]
      cases hsx : splitNl xs with
      | nil => exact absurd hsx (splitNl_ne_nil xs)
      | cons a as => simp

theorem pyLines_single (s : String) (h : '\n' ∉ s.data) : pyLines s = [s] := by
  unfold pyLines
  rw [splitNl_eq_single s.data h]
  simp [strMkData]

theorem pyLines_strJoinNl (L : List String) (hne : L ≠ []) :
    pyLines (strJoinNl L) = expandLines L := by
  induction L with
  | nil => exact absurd rfl hne
  | cons s ss ih =>
    cases ss with
    | nil => simp [pyLines, strJoinNl, joinNl, expandLines]
    | cons s2 ss2 =>
      have hstep : (strJoinNl (s :: s2 :: ss2)).data =
          s.data ++ '\n' :: (strJoinNl (s2 :: ss2)).data := rfl
      show (splitNl (strJoinNl (s :: s2 :: ss2)).data).map (fun cs => (⟨cs⟩ : String)) = _
      rw [hstep, splitNl_append_nl, List.map_append]
      rw [show (splitNl s.data).map (fun cs => (⟨cs⟩ : String)) = pyLines s from rfl]
      rw [show (splitNl (strJoinNl (s2 :: ss2)).data).map (fun cs => (⟨cs⟩ : String)) =
        pyLines (strJoinNl (s2 :: ss2)) from rfl]
      rw [ih (by simp)]
      rfl

theorem expandLines_append (u v : List String) :
    expandLines (u ++ v) = expandLines u ++ expandLines v := by
  induction u with
  | nil => rfl
  | cons s ss ih => simp [expandLines, ih, List.append_assoc]

theorem scanFences_append (u v : List String) (b : Bool) :
    scanFences (u ++ v) b = scanFences v (scanFences u b) := by
  induction u generalizing b with
  | nil => rfl
  | cons x xs ih =>
    simp only [List.cons_append, scanFences]
    exact ih _

theorem scan_single (x : String) (hx : fenceLine x = false) (E : List String) (b : Bool) :
    scanFences (x :: E) b = scanFences E b := by
  simp [scanFences, hx]

theorem scan_neutral (L : List String)
    (h : ∀ x ∈ L, fenceLine x = false ∧ '\n' ∉ x.data) (b : Bool) :
    scanFences (expandLines L) b = b := by
  induction L with
  | nil => rfl
  | cons x xs ih =>
    obtain ⟨hx, hnl⟩ := h x (List.mem_cons_self _ _)
    rw [show expandLines (x :: xs) = pyLines x ++ expandLines xs from rfl,
      pyLines_single x hnl, List.singleton_append, scan_single x hx]
    exact ih fun y hy => h y (List.mem_cons_of_mem _ hy)

theorem extractYaml_forall {P : String → Prop} :
    ∀ (lines : List String) (inHdr : Bool) (acc : List String),
      (∀ a ∈ acc, P a) → (∀ l ∈ lines, P (hashStrip l)) →
      ∀ x ∈ extractYaml lines inHdr acc, P x := by
  intro lines
  induction lines with
  | nil =>
    intro inHdr acc hacc _ x hx
    simp only [extractYaml] at hx
    exact hacc x (List.mem_reverse.mp hx)
  | cons l ls ih =>
    intro inHdr acc hacc hlines x hx
    simp only [extractYaml] at hx
    by_cases hl : strStrip l = "# ---"
    · rw [if_pos hl] at hx
      cases inHdr with
      | true =>
        rw [if_pos rfl] at hx
        exact hacc x (List.mem_reverse.mp hx)
      | false =>
        rw [if_neg (by simp)] at hx
        exact ih true acc hacc (fun y hy => hlines y (List.mem_cons_of_mem _ hy)) x hx
    · rw [if_neg hl] at hx
      cases inHdr with
      | true =>
        rw [if_pos rfl] at hx
        refine ih true (hashStrip l :: acc) ?_
          (fun y hy => hlines y (List.mem_cons_of_mem _ hy)) x hx
        intro a ha
        rcases List.mem_cons.mp ha with rfl | ha2
        · exact hlines l (List.mem_cons_self _ _)
        · exact hacc a ha2
      | false =>
        rw [if_neg (by simp)] at hx
        exact ih false acc hacc (fun y hy => hlines y (List.mem_cons_of_mem _ hy)) x hx

theorem lineOK_parts (l : String) (hok : lineOK l = true) :
    fenceLine l = false ∧ fenceLine (strDrop l 1) = false ∧ fenceLine (strDrop l 2) = false := by
  have h := hok
  simp only [lineOK, Bool.and_eq_true, Bool.not_eq_true'] at h
  exact ⟨h.1.1, h.1.2, h.2⟩

theorem hashStrip_ok (l : String) (hok : lineOK l = true) (hnl : '\n' ∉ l.data) :
    fenceLine (hashStrip l) = false ∧ '\n' ∉ (hashStrip l).data := by
  obtain ⟨h0, h1, h2⟩ := lineOK_parts l hok
  unfold hashStrip
  by_cases hs2 : strStartsWith l "# " = true
  · rw [if_pos hs2]
    exact ⟨h2, fun hm => hnl (List.mem_of_mem_drop hm)⟩
  · rw [if_neg hs2]
    by_cases hs1 : strStartsWith l "#" = true
    · rw [if_pos hs1]
      exact ⟨h1, fun hm => hnl (List.mem_of_mem_drop hm)⟩
    · rw [if_neg hs1]
      exact ⟨h0, hnl⟩

theorem stripL_cons_rcons (c : Char) (mid : List Char) (d : Char)
    (hc : isPySpace c = false) (hd : isPySpace d = false) :
    stripL (c :: (mid ++ [d])) = c :: (mid ++ [d]) := by
  unfold stripL
  rw [List.dropWhile_cons]
  simp only [hc]
  rw [if_neg (by simp)]
  have h2 : (c :: (mid ++ [d])).reverse = d :: (mid.reverse ++ [c]) := by
    simp [List.reverse_cons, List.reverse_append]
  rw [h2, List.dropWhile_cons]
  simp only [hd]
  rw [if_neg (by simp)]
  rw [← h2, List.reverse_reverse]

theorem fenceLine_title (stem : String) :
    fenceLine ("title: \"" ++ stem ++ "\"") = false := by
  show startsWithL (stripL ("title: \"" ++ stem ++ "\"").data) ("```".data) = false
  have hdata : ("title: \"" ++ stem ++ "\"").data =
      't' :: (("itle: \"".data ++ stem.data) ++ ['"']) := by
    rw [strData_append, strData_append]
    rw [show ("title: \"" : String).data = 't' :: ("itle: \"" : String).data from rfl]
    rfl
  rw [hdata, stripL_cons_rcons _ _ _ (by decide) (by decide)]
  simp [startsWithL]

theorem title_no_nl (stem : String) (hstem : '\n' ∉ stem.data) :
    '\n' ∉ ("title: \"" ++ stem ++ "\"").data := by
  rw [strData_append, strData_append]
  intro hm
  rcases List.mem_append.mp hm with hm1 | hm2
  · rcases List.mem_append.mp hm1 with ha | hb
    · exact absurd ha (by decide)
    · exact hstem hb
  · exact absurd hm2 (by decide)

theorem qmdLines_ne_nil (stem content : String) : qmdLines stem content ≠ [] := by
  simp [qmdLines]

theorem scan_bodyLoop (lines : List String) (inCode skip : Bool) (cnt : Nat)
    (hlines : ∀ l ∈ lines, lineOK l = true ∧ '\n' ∉ l.data) :
    scanFences (expandLines (bodyLoop lines inCode skip cnt).1) inCode =
      (bodyLoop lines inCode skip cnt).2 := by
  induction lines generalizing inCode skip cnt with
  | nil => rfl
  | cons l ls ih =>
    obtain ⟨hok, hnl⟩ := hlines l (List.mem_cons_self _ _)
    obtain ⟨hf0, hf1, hf2⟩ := lineOK_parts l hok
    have hrest : ∀ x ∈ ls, lineOK x = true ∧ '\n' ∉ x.data :=
      fun x hx => hlines x (List.mem_cons_of_mem _ hx)
    simp only [bodyLoop]
    cases skip with
    | true =>
      rw [if_pos rfl]
      by_cases hl : strStrip l = "# ---"
      · rw [if_pos hl]
        exact ih _ _ _ hrest
      · rw [if_neg hl]
        exact ih _ _ _ hrest
    | false =>
      rw [if_neg (by simp)]
      by_cases h1 : strStartsWith l "# %% [markdown]" = true
      · rw [if_pos h1]
        cases inCode with
        | true =>
          rw [if_pos rfl]
          show scanFences (expandLines ("```\n" :: (bodyLoop ls false false cnt).1)) true =
            (bodyLoop ls false false cnt).2
          rw [show expandLines ("```\n" :: (bodyLoop ls false false cnt).1) =
              ["```", ""] ++ expandLines ((bodyLoop ls false false cnt).1) from rfl,
            scanFences_append,
            show scanFences ["```", ""] true = false from by decide]
          exact ih _ _ _ hrest
        | false =>
          rw [if_neg (by simp)]
          exact ih _ _ _ hrest
      · rw [if_neg h1]
        by_cases h2 : strStartsWith l "# %%" = true
        · rw [if_pos h2]
          cases inCode with
          | true =>
            rw [if_pos rfl]
            exact ih _ _ _ hrest
          | false =>
            rw [if_neg (by simp)]
            show scanFences
                (expandLines ("\n```{python}" :: (bodyLoop ls true false cnt).1)) false =
              (bodyLoop ls true false cnt).2
            rw [show expandLines ("\n```{python}" :: (bodyLoop ls true false cnt).1) =
                ["", "```{python}"] ++ expandLines ((bodyLoop ls true false cnt).1) from rfl,
              scanFences_append,
              show scanFences ["", "```{python}"] false = true from by decide]
            exact ih _ _ _ hrest
        · rw [if_neg h2]
          by_cases h3 : inCode = false ∧ strStartsWith l "# " = true
          · rw [if_pos h3]
            have hnl2 : '\n' ∉ (strDrop l 2).data := fun hm => hnl (List.mem_of_mem_drop hm)
            show scanFences (expandLines (strDrop l 2 :: (bodyLoop ls inCode false cnt).1))
                inCode = (bodyLoop ls inCode false cnt).2
            rw [show expandLines (strDrop l 2 :: (bodyLoop ls inCode false cnt).1) =
                pyLines (strDrop l 2) ++ expandLines ((bodyLoop ls inCode false cnt).1)
                from rfl,
              pyLines_single _ hnl2, List.singleton_append, scan_single _ hf2]
            exact ih _ _ _ hrest
          · rw [if_neg h3]
            by_cases h4 : inCode = true
            · rw [if_pos h4]
              show scanFences (expandLines (l :: (bodyLoop ls inCode false cnt).1)) inCode =
                (bodyLoop ls inCode false cnt).2
              rw [show expandLines (l :: (bodyLoop ls inCode false cnt).1) =
                  pyLines l ++ expandLines ((bodyLoop ls inCode false cnt).1) from rfl,
                pyLines_single _ hnl, List.singleton_append, scan_single _ hf0]
              exact ih _ _ _ hrest
            · rw [if_neg h4]
              by_cases h5 : strStrip l = ""
              · rw [if_pos h5]
                show scanFences (expandLines ("" :: (bodyLoop ls inCode false cnt).1)) inCode =
                  (bodyLoop ls inCode false cnt).2
                rw [show expandLines ("" :: (bodyLoop ls inCode false cnt).1) =
                    [""] ++ expandLines ((bodyLoop ls inCode false cnt).1) from rfl,
                  List.singleton_append, scan_single _ (by decide)]
                exact ih _ _ _ hrest
              · rw [if_neg h5]
                exact ih _ _ _ hrest

/-- C5: on a source file none of whose lines (nor their one- or
two-character de-prefixings) smuggle a fence marker, and whose stem has no
newline, re-scanning the manual converter's output finds every code region
closed — in particular any region still open at end of input was closed. -/
theorem manual_jupytext_to_qmd_closes_fences (src : PathD) (content : String) (outDir : String)
    (res : PathD × String)
    (hres : manual_jupytext_to_qmd src (some content) outDir = some res)
    (hlines : ∀ l ∈ pyLines content, lineOK l = true)
    (hstem : '\n' ∉ (strStem src.file).data) :
    scanFences (pyLines res.2) false = false := by
  have hlines2 : ∀ l ∈ pyLines content, lineOK l = true ∧ '\n' ∉ l.data := by
    intro l hl
    refine ⟨hlines l hl, ?_⟩
    obtain ⟨cs, hcs, rfl⟩ := List.mem_map.mp hl
    exact splitNl_no_nl _ cs hcs
  simp only [manual_jupytext_to_qmd] at hres
  cases Option.some.inj hres
  show scanFences (pyLines (strJoinNl (qmdLines (strStem src.file) content))) false = false
  rw [pyLines_strJoinNl _ (qmdLines_ne_nil _ _)]
  have hsplit : qmdLines (strStem src.file) content =
      (["---"] ++
        (if extractYaml (pyLines content) false [] = []
          then ["title: \"" ++ strStem src.file ++ "\""]
          else extractYaml (pyLines content) false []) ++ ["---\n"]) ++
      ((bodyLoop (pyLines content) false true 0).1 ++
        (if (bodyLoop (pyLines content) false true 0).2 then ["```"] else [])) := by
    simp [qmdLines, List.append_assoc]
  rw [hsplit, expandLines_append, scanFences_append]
  have hhdr : scanFences
      (expandLines (["---"] ++
        (if extractYaml (pyLines content) false [] = []
          then ["title: \"" ++ strStem src.file ++ "\""]
          else extractYaml (pyLines content) false []) ++ ["---\n"])) false = false := by
    rw [expandLines_append, scanFences_append, expandLines_append, scanFences_append]
    rw [show scanFences (expandLines ["---"]) false = false from by decide]
    have hyaml : scanFences
        (expandLines (if extractYaml (pyLines content) false [] = []
          then ["title: \"" ++ strStem src.file ++ "\""]
          else extractYaml (pyLines content) false [])) false = false := by
      by_cases hy : extractYaml (pyLines content) false [] = []
      · rw [if_pos hy]
        refine scan_neutral _ ?_ false
        intro x hx
        rcases List.mem_singleton.mp hx with rfl
        exact ⟨fenceLine_title _, title_no_nl _ hstem⟩
      · rw [if_neg hy]
        refine scan_neutral _ ?_ false
        refine extractYaml_forall (P := fun x => fenceLine x = false ∧ '\n' ∉ x.data)
          (pyLines content) false [] (by simp) ?_
        intro l hl
        obtain ⟨hok, hnl⟩ := hlines2 l hl
        exact hashStrip_ok l hok hnl
    rw [hyaml]
    decide
  rw [hhdr, expandLines_append, scanFences_append]
  rw [scan_bodyLoop _ _ _ _ hlines2]
  cases hB : (bodyLoop (pyLines content) false true 0).2 with
  | false => rfl
  | true => decide

/-- Witness for C5 at a concrete well-formed percent-format file. -/
theorem manual_jupytext_to_qmd_closes_fences_witness :
    manual_jupytext_to_qmd ⟨"Team_Projects/T", "nb.py"⟩
        (some "# ---\n# t: v\n# ---\n# %%\nx=1") "Team_Projects/T" =
      some (⟨"Team_Projects/T", "nb.qmd"⟩, "---\nt: v\n---\n\n\n```{python}\nx=1\n```") ∧
    (∀ l ∈ pyLines "# ---\n# t: v\n# ---\n# %%\nx=1", lineOK l = true) ∧
    '\n' ∉ (strStem "nb.py").data ∧
    scanFences
      (pyLines ("---\nt: v\n---\n\n\n```{python}\nx=1\n```" : String)) false = false :=
  ⟨by decide, by decide, by decide,
    manual_jupytext_to_qmd_closes_fences ⟨"Team_Projects/T", "nb.py"⟩
      "# ---\n# t: v\n# ---\n# %%\nx=1" "Team_Projects/T"
      (⟨"Team_Projects/T", "nb.qmd"⟩, "---\nt: v\n---\n\n\n```{python}\nx=1\n```")
      (by decide) (by decide) (by decide)⟩

/-! ### Lemmas about suffix tests and stems of appended names -/

theorem startsWithL_append_of_le (a b pat : List Char) (h : pat.length ≤ a.length) :
    startsWithL (a ++ b) pat = startsWithL a pat := by
  induction pat generalizing a with
  | nil => simp [startsWithL]
  | cons y ys ih =>
    cases a with
    | nil => simp at h
    | cons x xs =>
      simp only [List.cons_append, startsWithL, List.append_eq]
      rw [ih xs (by simpa using h)]

theorem startsWithL_append_false_of_prefix (a b pat : List Char)
    (h : startsWithL a (pat.take a.length) = false) :
    startsWithL (a ++ b) pat = false := by
  induction a generalizing pat with
  | nil => simp [startsWithL] at h
  | cons x xs ih =>
    cases pat with
    | nil => simp [startsWithL] at h
    | cons y ys =>
      simp only [List.length_cons, List.take_succ_cons] at h
      simp only [startsWithL, List.cons_append] at h ⊢
      cases hxy : (x == y) with
      | false => simp [hxy]
      | true =>
        rw [hxy] at h
        simp only [Bool.true_and] at h ⊢
        exact ih _ h

theorem strNe_empty_data (s : String) (h : s ≠ "") : s.data ≠ [] := by
  intro hd
  exact h (strExt (by simp [hd]))

theorem strStem_append_py (stem : String) (h : stem ≠ "") :
    strStem (stem ++ ".py") = stem := by
  have hrev : ((stem ++ ".py").data).reverse = 'y' :: 'p' :: '.' :: stem.data.reverse := by
    rw [strData_append, List.reverse_append]
    rfl
  have hne2 : stem.data.reverse ≠ [] := by
    intro hh
    have : stem.data = [] := by simpa using congrArg List.reverse hh
    exact strNe_empty_data stem h this
  show (⟨stemL ((stem ++ ".py").data)⟩ : String) = stem
  have hst : stemL ((stem ++ ".py").data) = stem.data := by
    unfold stemL
    rw [hrev]
    have hidx : dotIdx ('y' :: 'p' :: '.' :: stem.data.reverse) = some 2 := by
      simp [dotIdx]
    rw [hidx]
    simp [hne2]
  rw [hst, strMkData]

theorem strStem_append_qmd (stem : String) (h : stem ≠ "") :
    strStem (stem ++ ".qmd") = stem := by
  have hrev : ((stem ++ ".qmd").data).reverse = 'd' :: 'm' :: 'q' :: '.' :: stem.data.reverse := by
    rw [strData_append, List.reverse_append]
    rfl
  have hne2 : stem.data.reverse ≠ [] := by
    intro hh
    have : stem.data = [] := by simpa using congrArg List.reverse hh
    exact strNe_empty_data stem h this
  show (⟨stemL ((stem ++ ".qmd").data)⟩ : String) = stem
  have hst : stemL ((stem ++ ".qmd").data) = stem.data := by
    unfold stemL
    rw [hrev]
    have hidx : dotIdx ('d' :: 'm' :: 'q' :: '.' :: stem.data.reverse) = some 3 := by
      simp [dotIdx]
    rw [hidx]
    simp [hne2]
  rw [hst, strMkData]

theorem convert_some_path (outcome : RunOutcome) (src : PathD) (content : Option String)
    (outDir : String) (p : PathD)
    (h : convert_jupytext_to_qmd outcome src content outDir = some p) :
    p = ⟨outDir, strStem src.file ++ ".qmd"⟩ := by
  cases outcome with
  | ran rc se outEx =>
    simp only [convert_jupytext_to_qmd, convert_jupytext_steps] at h
    by_cases hc : rc = 0 ∧ outEx = true
    · rw [if_pos hc] at h
      exact (Option.some.inj h).symm
    · rw [if_neg hc] at h
      exact absurd h (by simp)
  | notFound =>
    simp only [convert_jupytext_to_qmd, convert_jupytext_steps] at h
    cases content with
    | none => exact absurd h (by simp [manual_jupytext_to_qmd])
    | some c =>
      simp only [manual_jupytext_to_qmd, Option.map_some'] at h
      exact (Option.some.inj h).symm

/-- C10: a team holding both `X.qmd` and a convertible `X.py` has the
conversion write to that same `X.qmd` path, after which both of the team's
file entries carry the identical path, and both the sidebar lines of the
configuration and the landing-page links list that path twice. -/
theorem duplicate_stem_listed_twice (dn stem qc pc : String) (env : PathD → RunOutcome)
    (outp : PathD)
    (h1 : strStartsWith dn "." = false) (h2 : dn ∉ skip_dirs) (h3 : stem ≠ "")
    (h4 : is_jupytext_file (some pc) = true)
    (h5 : convert_jupytext_to_qmd (env ⟨"Team_Projects/" ++ dn, stem ++ ".py"⟩)
        ⟨"Team_Projects/" ++ dn, stem ++ ".py"⟩ (some pc) ("Team_Projects/" ++ dn) =
      some outp) :
    outp = ⟨"Team_Projects/" ++ dn, stem ++ ".qmd"⟩ ∧
    processTeams env (discover_team_projects true
        [⟨dn, true, [⟨stem ++ ".qmd", some qc⟩, ⟨stem ++ ".py", some pc⟩]⟩]) =
      [⟨dn, "Team_Projects/" ++ dn,
        [⟨⟨"Team_Projects/" ++ dn, stem ++ ".qmd"⟩, DocType.quarto, stem, some qc⟩,
         ⟨⟨"Team_Projects/" ++ dn, stem ++ ".qmd"⟩, DocType.quarto, stem, some pc⟩]⟩] ∧
    (sidebarLines ⟨dn, "Team_Projects/" ++ dn,
        [⟨⟨"Team_Projects/" ++ dn, stem ++ ".qmd"⟩, DocType.quarto, stem, some qc⟩,
         ⟨⟨"Team_Projects/" ++ dn, stem ++ ".qmd"⟩, DocType.quarto, stem, some pc⟩]⟩).count
      ("          - " ++ ("Team_Projects/" ++ dn ++ "/" ++ (stem ++ ".qmd"))) = 2 ∧
    ((⟨dn, "Team_Projects/" ++ dn,
        [⟨⟨"Team_Projects/" ++ dn, stem ++ ".qmd"⟩, DocType.quarto, stem, some qc⟩,
         ⟨⟨"Team_Projects/" ++ dn, stem ++ ".qmd"⟩, DocType.quarto, stem, some pc⟩]⟩ :
        Team).files.map docLink).count
      ("- [" ++ stem ++ "](" ++ ("Team_Projects/" ++ dn ++ "/" ++ (stem ++ ".qmd")) ++ ")\n")
      = 2 := by
  have eq_md : strEndsWith (stem ++ ".qmd") ".md" = false := by
    unfold strEndsWith endsWithL
    rw [strData_append, List.reverse_append]
    exact startsWithL_append_false_of_prefix _ _ _ (by decide)
  have ep_md : strEndsWith (stem ++ ".py") ".md" = false := by
    unfold strEndsWith endsWithL
    rw [strData_append, List.reverse_append]
    exact startsWithL_append_false_of_prefix _ _ _ (by decide)
  have eq_qmd : strEndsWith (stem ++ ".qmd") ".qmd" = true := by
    unfold strEndsWith endsWithL
    rw [strData_append, List.reverse_append]
    rw [startsWithL_append_of_le _ _ _ (by decide)]
    decide
  have ep_qmd : strEndsWith (stem ++ ".py") ".qmd" = false := by
    unfold strEndsWith endsWithL
    rw [strData_append, List.reverse_append]
    exact startsWithL_append_false_of_prefix _ _ _ (by decide)
  have eq_ipynb : strEndsWith (stem ++ ".qmd") ".ipynb" = false := by
    unfold strEndsWith endsWithL
    rw [strData_append, List.reverse_append]
    exact startsWithL_append_false_of_prefix _ _ _ (by decide)
  have ep_ipynb : strEndsWith (stem ++ ".py") ".ipynb" = false := by
    unfold strEndsWith endsWithL
    rw [strData_append, List.reverse_append]
    exact startsWithL_append_false_of_prefix _ _ _ (by decide)
  have eq_py : strEndsWith (stem ++ ".qmd") ".py" = false := by
    unfold strEndsWith endsWithL
    rw [strData_append, List.reverse_append]
    exact startsWithL_append_false_of_prefix _ _ _ (by decide)
  have ep_py : strEndsWith (stem ++ ".py") ".py" = true := by
    unfold strEndsWith endsWithL
    rw [strData_append, List.reverse_append]
    rw [startsWithL_append_of_le _ _ _ (by decide)]
    decide
  have hteam : teamFiles ⟨dn, true, [⟨stem ++ ".qmd", some qc⟩, ⟨stem ++ ".py", some pc⟩]⟩ =
      [⟨⟨"Team_Projects/" ++ dn, stem ++ ".qmd"⟩, DocType.quarto, stem, some qc⟩,
       ⟨⟨"Team_Projects/" ++ dn, stem ++ ".py"⟩, DocType.jupytext, stem, some pc⟩] := by
    simp only [teamFiles, globFiles, List.filter_cons, List.filter_nil, eq_md, ep_md,
      eq_qmd, ep_qmd, eq_ipynb, ep_ipynb, eq_py, ep_py, h4, if_true, if_false,
      Bool.false_eq_true, List.insertionSort, List.orderedInsert, List.map_cons,
      List.map_nil, mkDoc]
    rw [strStem_append_qmd stem h3, strStem_append_py stem h3]
    simp
  have hdisc : discover_team_projects true
      [⟨dn, true, [⟨stem ++ ".qmd", some qc⟩, ⟨stem ++ ".py", some pc⟩]⟩] =
      [⟨dn, "Team_Projects/" ++ dn,
        [⟨⟨"Team_Projects/" ++ dn, stem ++ ".qmd"⟩, DocType.quarto, stem, some qc⟩,
         ⟨⟨"Team_Projects/" ++ dn, stem ++ ".py"⟩, DocType.jupytext, stem, some pc⟩]⟩] := by
    rw [show discover_team_projects true
        [⟨dn, true, [⟨stem ++ ".qmd", some qc⟩, ⟨stem ++ ".py", some pc⟩]⟩] =
      discoverLoop (List.insertionSort dirLE
        [⟨dn, true, [⟨stem ++ ".qmd", some qc⟩, ⟨stem ++ ".py", some pc⟩]⟩]) from if_pos rfl]
    rw [show List.insertionSort dirLE
        [⟨dn, true, [⟨stem ++ ".qmd", some qc⟩, ⟨stem ++ ".py", some pc⟩]⟩] =
      [⟨dn, true, [⟨stem ++ ".qmd", some qc⟩, ⟨stem ++ ".py", some pc⟩]⟩] from by
        simp [List.insertionSort, List.orderedInsert]]
    simp only [discoverLoop]
    rw [if_neg (by simp)]
    rw [if_neg (by rw [h1]; simp [h2])]
    rw [if_neg (by rw [hteam]; simp)]
    rw [hteam]
  have houtp : outp = ⟨"Team_Projects/" ++ dn, stem ++ ".qmd"⟩ := by
    have hp := convert_some_path _ _ _ _ _ h5
    rw [hp]
    rw [show (⟨"Team_Projects/" ++ dn, stem ++ ".py"⟩ : PathD).file = stem ++ ".py" from rfl,
      strStem_append_py stem h3]
  have hcd : convDoc env
      ⟨⟨"Team_Projects/" ++ dn, stem ++ ".py"⟩, DocType.jupytext, stem, some pc⟩ =
      some outp := h5
  refine ⟨houtp, ?_, ?_, ?_⟩
  · rw [hdisc]
    simp only [processTeams, List.map_cons, List.map_nil, updateDoc]
    simp [hcd, houtp]
  · simp only [sidebarLines, yamlFileLine, relPath, List.map_cons, List.map_nil]
    simp [List.count_cons]
  · simp only [docLink, relPath, List.map_cons, List.map_nil]
    simp [List.count_cons]

/-- Witness for C10 at a concrete team with `X.qmd` and a convertible
`X.py`, the converter succeeding. -/
theorem duplicate_stem_listed_twice_witness :
    strStartsWith "T" "." = false ∧
    "T" ∉ skip_dirs ∧
    "X" ≠ "" ∧
    is_jupytext_file (some "# ---\njupytext:") = true ∧
    convert_jupytext_to_qmd
        ((fun _ => RunOutcome.ran 0 "" true) (⟨"Team_Projects/" ++ "T", "X" ++ ".py"⟩ : PathD))
        ⟨"Team_Projects/" ++ "T", "X" ++ ".py"⟩ (some "# ---\njupytext:")
        ("Team_Projects/" ++ "T") =
      some ⟨"Team_Projects/T", "X.qmd"⟩ ∧
    ((⟨"Team_Projects/T", "X.qmd"⟩ : PathD) =
        ⟨"Team_Projects/" ++ "T", "X" ++ ".qmd"⟩ ∧
      processTeams (fun _ => RunOutcome.ran 0 "" true) (discover_team_projects true
          [⟨"T", true, [⟨"X" ++ ".qmd", some ""⟩, ⟨"X" ++ ".py", some "# ---\njupytext:"⟩]⟩]) =
        [⟨"T", "Team_Projects/" ++ "T",
          [⟨⟨"Team_Projects/" ++ "T", "X" ++ ".qmd"⟩, DocType.quarto, "X", some ""⟩,
           ⟨⟨"Team_Projects/" ++ "T", "X" ++ ".qmd"⟩, DocType.quarto, "X",
             some "# ---\njupytext:"⟩]⟩] ∧
      (sidebarLines ⟨"T", "Team_Projects/" ++ "T",
          [⟨⟨"Team_Projects/" ++ "T", "X" ++ ".qmd"⟩, DocType.quarto, "X", some ""⟩,
           ⟨⟨"Team_Projects/" ++ "T", "X" ++ ".qmd"⟩, DocType.quarto, "X",
             some "# ---\njupytext:"⟩]⟩).count
        ("          - " ++ ("Team_Projects/" ++ "T" ++ "/" ++ ("X" ++ ".qmd"))) = 2 ∧
      ((⟨"T", "Team_Projects/" ++ "T",
          [⟨⟨"Team_Projects/" ++ "T", "X" ++ ".qmd"⟩, DocType.quarto, "X", some ""⟩,
           ⟨⟨"Team_Projects/" ++ "T", "X" ++ ".qmd"⟩, DocType.quarto, "X",
             some "# ---\njupytext:"⟩]⟩ : Team).files.map docLink).count
        ("- [" ++ "X" ++ "](" ++ ("Team_Projects/" ++ "T" ++ "/" ++ ("X" ++ ".qmd")) ++ ")\n")
        = 2) :=
  ⟨by decide, by decide, by decide, by decide, by decide,
    duplicate_stem_listed_twice "T" "X" "" "# ---\njupytext:"
      (fun _ => RunOutcome.ran 0 "" true) ⟨"Team_Projects/T", "X.qmd"⟩
      (by decide) (by decide) (by decide) (by decide) (by decide)⟩

end DataDive
